import Mathlib

set_option maxRecDepth 8000

/-!
Shallow embedding of the repository source `src/main.rs`: exact arithmetic in
the field GF(5^2) = F5[t]/(t^2 + 2), the elliptic-curve group law over it, and
the brute-force enumeration routines for torsion points and Frobenius
eigenspace ("G2") points.

Rust panics — inversion of the zero field element (no modular inverse found)
and `Option::unwrap` on a missing coordinate — are modelled by `Option`:
a `none` result is the fatal, process-terminating path.  Machine integers
(`u8`, `i16`) are modelled by `Nat` / `Int` with the same modular reductions
the source performs; no intermediate value in the source ever approaches the
machine-width bounds, so no extra wrap-around modelling is needed.
-/

/-- An element of GF(5^2): the pair `a + b*t` with `t^2 = -2 = 3 (mod 5)`
(Rust struct `F5x2` with two `u8` components). -/
structure F5x2 where
  a : Nat
  b : Nat
deriving DecidableEq

/-- Rust `F5x2::new`: reduces both components modulo 5. -/
def F5x2.new (a b : Nat) : F5x2 := ⟨a % 5, b % 5⟩

/-- Rust `F5x2::add`: componentwise addition modulo 5. -/
def F5x2.add (x y : F5x2) : F5x2 :=
  F5x2.new ((x.a + y.a) % 5) ((x.b + y.b) % 5)

/-- Rust `F5x2::sub`: componentwise subtraction modulo 5 (via `+ 5` to stay
non-negative, as the source does on `u8`). -/
def F5x2.sub (x y : F5x2) : F5x2 :=
  F5x2.new ((x.a + 5 - y.a) % 5) ((x.b + 5 - y.b) % 5)

/-- Rust `F5x2::mul`: (a+bt)(c+dt) = ac + 3bd + (ad+bc)t using t^2 = 3. -/
def F5x2.mul (x y : F5x2) : F5x2 :=
  let ac := x.a * y.a % 5
  let bd := x.b * y.b % 5
  let ad_plus_bc := (x.a * y.b + x.b * y.a) % 5
  F5x2.new ((ac + 3 * bd) % 5) (ad_plus_bc % 5)

/-- Rust `F5x2::mod_inverse`: brute-force search for a multiplicative inverse
of `x` modulo `p` over `i = 1, ..., p-1`; the source panics when none is
found, modelled here by `none`. -/
def F5x2.mod_inverse (x p : Nat) : Option Nat :=
  (List.range' 1 (p - 1)).find? fun i => x * i % p == 1

/-- Rust `F5x2::inverse`: conjugate divided by the norm `a^2 - 3 b^2 (mod 5)`.
The source computes in `i16` with `rem_euclid(5)` (always non-negative),
modelled by `Int.emod`; the `5 - r` in the second component may produce 5,
which `F5x2.new` reduces back to 0. -/
def F5x2.inverse (u : F5x2) : Option F5x2 :=
  let a : Int := u.a
  let b : Int := u.b
  let denominator := ((a * a - 3 * b * b).emod 5).toNat
  (F5x2.mod_inverse denominator 5).map fun inv =>
    let i : Int := Int.ofNat inv
    let new_a := ((a * i).emod 5).toNat
    let new_b := 5 - ((b * i).emod 5).toNat
    F5x2.new new_a new_b

/-- Rust `F5x2::div`: multiplication by the inverse; inherits the fatal path
of `inverse` when `y` is zero. -/
def F5x2.div (x y : F5x2) : Option F5x2 :=
  y.inverse.map fun inv => x.mul inv

/-- Rust `F5x2::frobenius`: `(a + b*t)^5 = a + 4b*t`. -/
def F5x2.frobenius (u : F5x2) : F5x2 :=
  F5x2.new u.a (4 * u.b % 5)

/-- A point: the source stores the two coordinates as independent `Option`
fields (Rust struct `Point`). -/
structure Point where
  x : Option F5x2
  y : Option F5x2
deriving DecidableEq

/-- Rust `Point::new`. -/
def Point.new (x y : Option F5x2) : Point := ⟨x, y⟩

/-- Rust `Point::is_at_infinity`: both coordinates absent. -/
def Point.is_at_infinity (p : Point) : Bool := p.x.isNone && p.y.isNone

/-- Rust `Point::at_infinity`. -/
def Point.at_infinity : Point := ⟨none, none⟩

/-- Rust `point_add` on the curve y^2 = x^3 + a x + b.  The coordinate
`unwrap`s become `Option` binds (a missing coordinate on a non-infinity
point is a panic in the source), and the division carries the zero-denominator
fatal path. -/
def point_add (p q : Point) (a : F5x2) : Option Point :=
  if p.is_at_infinity then some q
  else if q.is_at_infinity then some p
  else do
    let x1 ← p.x
    let y1 ← p.y
    let x2 ← q.x
    let y2 ← q.y
    if x1 = x2 ∧ y1 ≠ y2 then
      pure Point.at_infinity
    else do
      let lambda ←
        if x1 = x2 ∧ y1 = y2 then
          (((x1.mul x1).mul (F5x2.new 3 0)).add a).div (y1.mul (F5x2.new 2 0))
        else
          (y2.sub y1).div (x2.sub x1)
      let x3 := ((lambda.mul lambda).sub x1).sub x2
      let y3 := (lambda.mul (x1.sub x3)).sub y1
      pure (Point.new (some x3) (some y3))

/-- The double-and-add loop of Rust `point_mul`, with an explicit fuel bound
on the number of iterations so the recursion is structural.  The loop body is
exact: when the low bit of `k` is set the base is added into the result, then
the base is doubled and `k` is shifted right.  The loop runs `bitlength k`
times, and `bitlength k ≤ k`, so calling with `fuel = k` reproduces the
source loop exactly (see `point_mulAux_fuel_irrelevant`). -/
def point_mulAux (a : F5x2) : Nat → Nat → Point → Point → Option Point
  | 0, _, _, result => some result
  | fuel + 1, k, base, result =>
    if k = 0 then some result
    else do
      let result' ← if k % 2 = 1 then point_add result base a else pure result
      let base' ← point_add base base a
      point_mulAux a fuel (k / 2) base' result'

/-- Rust `point_mul`: double-and-add scalar multiplication, result
initialised to the point at infinity. -/
def point_mul (n : Nat) (p : Point) (a : F5x2) : Option Point :=
  point_mulAux a n n p Point.at_infinity

/-- Rust `point_frobenius`: identity maps to itself, an affine point maps
coordinatewise through the field Frobenius (coordinate `unwrap`s modelled as
binds). -/
def point_frobenius (p : Point) : Option Point :=
  if p.is_at_infinity then some p
  else do
    let x ← p.x
    let y ← p.y
    pure (Point.new (some x.frobenius) (some y.frobenius))

/-- The right-hand side x^3 + a x + b of the curve equation, built with the
same operation order as the source (`x_cubed.add(a.mul(x)).add(b)`). -/
def curveRhs (a b x : F5x2) : F5x2 :=
  (((x.mul x).mul x).add (a.mul x)).add b

/-- The affine candidate points scanned by the nested loops shared by
`find_full_r_torsion_points`, `find_g2_points` and `main` (x in the outer
loop, y in the inner loop, keeping those y with y^2 equal to the curve
right-hand side), in iteration order. -/
def curvePoints (a b : F5x2) (fe : List F5x2) : List Point :=
  fe.flatMap fun x =>
    (fe.filter fun y => y.mul y == curveRhs a b x).map fun y =>
      Point.new (some x) (some y)

/-- The torsion filter of `find_full_r_torsion_points` as a pure test:
`point_mul r p a` succeeded and returned the point at infinity. -/
def torsionTestB (r : Nat) (a : F5x2) (p : Point) : Bool :=
  match point_mul r p a with
  | some m => m.is_at_infinity
  | none => false

/-- The body of the `find_full_r_torsion_points` loop over the candidate
points: keep `p` when `point_mul r p a` lands at infinity; a panic inside
`point_mul` aborts the whole run (`none`). -/
def filterTorsion (r : Nat) (a : F5x2) : List Point → Option (List Point)
  | [] => some []
  | p :: ps => do
    let m ← point_mul r p a
    let rest ← filterTorsion r a ps
    pure (if m.is_at_infinity then p :: rest else rest)

/-- Rust `find_full_r_torsion_points`: filter the candidate curve points by
the r-torsion test, then append the point at infinity unconditionally. -/
def find_full_r_torsion_points (r : Nat) (a b : F5x2) (fe : List F5x2) :
    Option (List Point) :=
  (filterTorsion r a (curvePoints a b fe)).map fun l => l ++ [Point.at_infinity]

/-- The G2 membership test of `find_g2_points` as a pure test: both the
Frobenius image and the 5-multiple were computed without panic and agree. -/
def g2TestB (a : F5x2) (p : Point) : Bool :=
  match point_frobenius p, point_mul 5 p a with
  | some f, some m => f == m
  | _, _ => false

/-- The body of the `find_g2_points` loop over the candidate points: keep `p`
when its Frobenius image equals its 5-multiple; a panic aborts the run. -/
def filterG2 (a : F5x2) : List Point → Option (List Point)
  | [] => some []
  | p :: ps => do
    let f ← point_frobenius p
    let m ← point_mul 5 p a
    let rest ← filterG2 a ps
    pure (if f = m then p :: rest else rest)

/-- Rust `find_g2_points`: filter the candidate curve points by the
Frobenius-eigenspace test, then append the point at infinity. -/
def find_g2_points (a b : F5x2) (fe : List F5x2) : Option (List Point) :=
  (filterG2 a (curvePoints a b fe)).map fun l => l ++ [Point.at_infinity]

/-- The 25-element field universe built by `main`: all `F5x2::new(a, b)` for
`a` in the outer loop and `b` in the inner loop over `0..5`. -/
def field_elements : List F5x2 :=
  (List.range 5).flatMap fun a => (List.range 5).map fun b => F5x2.new a b

/-- The fixed curve parameter A = 1 of `main` (curve y^2 = x^3 + x + 1). -/
def a_curve : F5x2 := F5x2.new 1 0

/-- The fixed curve parameter B = 1 of `main`. -/
def b_curve : F5x2 := F5x2.new 1 0

/-- The field universe indeed has the 25 elements of GF(5^2). -/
theorem field_elements_length : field_elements.length = 25 := by decide

/-- Boolean check that a list of points is closed under `point_add` with
parameter `a`: every pairwise addition succeeds and lands back in the list. -/
def addClosedB (a : F5x2) (l : List Point) : Bool :=
  l.all fun p => l.all fun q =>
    match point_add p q a with
    | some s => l.contains s
    | none => false

/-- A point is well formed when the two coordinate options are both present
or both absent. -/
def wfB (p : Point) : Bool := p.x.isSome == p.y.isSome

/-- Both components of a field element lie in the canonical range [0, 5). -/
def canonicalB (u : F5x2) : Bool := decide (u.a < 5) && decide (u.b < 5)

/-- The orbit of repeated `point_add` of `p` starting at `cur`, cut off at the
point at infinity (or when the fuel runs out); a proof device for reasoning
about `point_mul`, not part of the source. -/
def cycleListAux (a : F5x2) (p : Point) : Nat → Point → List Point
  | 0, _ => []
  | fuel + 1, cur =>
    if cur = Point.at_infinity then []
    else
      cur :: (match point_add cur p a with
              | some nxt => cycleListAux a p fuel nxt
              | none => [])

/-- The cycle table of `p`: the point at infinity followed by `p`, `2p`, ...
up to (but not including) the first return to infinity. -/
def cycleList (a : F5x2) (p : Point) : List Point :=
  Point.at_infinity :: cycleListAux a p 30 p

/-- Checks that the cycle table of `p` behaves like the cyclic group Z/d:
entry 0 is the point at infinity, `p` sits at index 1 (index 0 when the table
is a singleton, i.e. when `p` is the point at infinity itself), and adding
entries i and j gives entry (i+j) mod d, always successfully. -/
def cycCheckB (a : F5x2) (p : Point) : Bool :=
  let T := cycleList a p
  let d := T.length
  (T.getD 0 Point.at_infinity == Point.at_infinity) &&
  (T.getD (if d = 1 then 0 else 1) Point.at_infinity == p) &&
  ((List.range d).all fun i => (List.range d).all fun j =>
    point_add (T.getD i Point.at_infinity) (T.getD j Point.at_infinity) a
      == some (T.getD ((i + j) % d) Point.at_infinity))

/- ### Generic lemmas about the embedding -/

theorem is_at_infinity_iff (p : Point) :
    p.is_at_infinity = true ↔ p = Point.at_infinity := by
  cases p with
  | mk px py =>
    cases px <;> cases py <;>
      simp [Point.is_at_infinity, Point.at_infinity, Option.isNone]

theorem mem_curvePoints {a b : F5x2} {fe : List F5x2} {p : Point}
    (h : p ∈ curvePoints a b fe) :
    ∃ x y, p = Point.new (some x) (some y) ∧ x ∈ fe ∧ y ∈ fe ∧
      (y.mul y == curveRhs a b x) = true := by
  simp only [curvePoints, List.mem_flatMap, List.mem_map, List.mem_filter] at h
  obtain ⟨x, hx, y, ⟨hy, heq⟩, hp⟩ := h
  exact ⟨x, y, hp.symm, hx, hy, heq⟩

theorem curvePoints_complete {a b x y : F5x2} {fe : List F5x2}
    (hx : x ∈ fe) (hy : y ∈ fe) (heq : (y.mul y == curveRhs a b x) = true) :
    Point.new (some x) (some y) ∈ curvePoints a b fe := by
  simp only [curvePoints, List.mem_flatMap, List.mem_map, List.mem_filter]
  exact ⟨x, hx, y, ⟨hy, heq⟩, rfl⟩

theorem addClosedB_spec {a : F5x2} {l : List Point} (hc : addClosedB a l = true)
    {p q : Point} (hp : p ∈ l) (hq : q ∈ l) :
    ∃ s, point_add p q a = some s ∧ s ∈ l := by
  have h := (List.all_eq_true.mp hc p hp)
  have h2 := (List.all_eq_true.mp h q hq)
  revert h2
  cases hadd : point_add p q a with
  | none => intro h2; simp at h2
  | some s =>
    intro h2
    exact ⟨s, rfl, by simpa using h2⟩

theorem point_mulAux_closed {a : F5x2} {l : List Point}
    (hc : addClosedB a l = true) :
    ∀ (fuel k : Nat) (base result : Point), base ∈ l → result ∈ l →
      ∃ s, point_mulAux a fuel k base result = some s ∧ s ∈ l := by
  intro fuel
  induction fuel with
  | zero => intro k base result _ hr; exact ⟨result, rfl, hr⟩
  | succ fuel ih =>
    intro k base result hb hr
    by_cases hk : k = 0
    · subst hk; exact ⟨result, by simp [point_mulAux], hr⟩
    · obtain ⟨b', hb', hb'mem⟩ := addClosedB_spec hc hb hb
      by_cases hbit : k % 2 = 1
      · obtain ⟨r', hr', hr'mem⟩ := addClosedB_spec hc hr hb
        obtain ⟨s, hs, hsmem⟩ := ih (k / 2) b' r' hb'mem hr'mem
        exact ⟨s, by simp [point_mulAux, hk, hbit, hr', hb', hs], hsmem⟩
      · obtain ⟨s, hs, hsmem⟩ := ih (k / 2) b' result hb'mem hr
        exact ⟨s, by simp [point_mulAux, hk, hbit, hb', hs], hsmem⟩

theorem point_mul_closed {a : F5x2} {l : List Point}
    (hc : addClosedB a l = true) {p : Point} (hp : p ∈ l)
    (ho : Point.at_infinity ∈ l) (n : Nat) :
    ∃ s, point_mul n p a = some s ∧ s ∈ l :=
  point_mulAux_closed hc n n p Point.at_infinity hp ho

theorem filterTorsion_eq {r : Nat} {a : F5x2} :
    ∀ {m : List Point}, (∀ p ∈ m, (point_mul r p a).isSome = true) →
      filterTorsion r a m = some (m.filter (torsionTestB r a)) := by
  intro m
  induction m with
  | nil => intro _; rfl
  | cons p ps ih =>
    intro h
    have hp := h p (List.mem_cons_self p ps)
    obtain ⟨mp, hmp⟩ := Option.isSome_iff_exists.mp hp
    have hrest := ih fun q hq => h q (List.mem_cons_of_mem p hq)
    simp only [filterTorsion, hmp, hrest, Option.bind_some, List.filter_cons,
      torsionTestB, Option.pure_def]
    cases hinf : mp.is_at_infinity <;> simp [hinf]

theorem filterTorsion_subset {r : Nat} {a : F5x2} :
    ∀ {m out : List Point}, filterTorsion r a m = some out → ∀ p ∈ out, p ∈ m := by
  intro m
  induction m with
  | nil =>
    intro out h p hp
    simp only [filterTorsion, Option.some_inj] at h
    subst h; simp at hp
  | cons q qs ih =>
    intro out h p hp
    simp only [filterTorsion, Option.bind_eq_bind, Option.bind_eq_some] at h
    obtain ⟨mq, _, rest, hrest, hout⟩ := h
    have : p = q ∨ p ∈ rest := by
      by_cases hinf : mq.is_at_infinity = true
      · simp [hinf, Option.pure_def] at hout
        subst hout
        rcases List.mem_cons.mp hp with h1 | h2
        · exact Or.inl h1
        · exact Or.inr h2
      · simp [hinf, Option.pure_def] at hout
        subst hout
        exact Or.inr hp
    rcases this with h1 | h2
    · subst h1; exact List.mem_cons_self p qs
    · exact List.mem_cons_of_mem q (ih hrest p h2)

theorem filterG2_subset {a : F5x2} :
    ∀ {m out : List Point}, filterG2 a m = some out → ∀ p ∈ out, p ∈ m := by
  intro m
  induction m with
  | nil =>
    intro out h p hp
    simp only [filterG2, Option.some_inj] at h
    subst h; simp at hp
  | cons q qs ih =>
    intro out h p hp
    simp only [filterG2, Option.bind_eq_bind, Option.bind_eq_some] at h
    obtain ⟨f, _, m5, _, rest, hrest, hout⟩ := h
    have : p = q ∨ p ∈ rest := by
      by_cases heq : f = m5
      · simp [heq, Option.pure_def] at hout
        subst hout
        rcases List.mem_cons.mp hp with h1 | h2
        · exact Or.inl h1
        · exact Or.inr h2
      · simp [heq, Option.pure_def] at hout
        subst hout
        exact Or.inr hp
    rcases this with h1 | h2
    · subst h1; exact List.mem_cons_self p qs
    · exact List.mem_cons_of_mem q (ih hrest p h2)

/-- The 27 points of the fixed curve (26 affine candidates plus the point at
infinity) are closed under `point_add` with parameter `a_curve`, and every
pairwise addition succeeds. -/
theorem addClosed_concrete :
    addClosedB a_curve (curvePoints a_curve b_curve field_elements
      ++ [Point.at_infinity]) = true := by decide

theorem point_mul_isSome_on_curve {p : Point}
    (hp : p ∈ curvePoints a_curve b_curve field_elements ++ [Point.at_infinity])
    (n : Nat) : (point_mul n p a_curve).isSome = true := by
  obtain ⟨s, hs, _⟩ := point_mul_closed addClosed_concrete hp
    (by simp) n
  simp [hs]

/- ### Well-formedness lemmas (both coordinates present, or both absent) -/

theorem wfB_cases {p : Point} (hp : wfB p = true) :
    p = Point.at_infinity ∨ ∃ x y, p = Point.new (some x) (some y) := by
  cases p with
  | mk px py =>
    cases px with
    | none =>
      cases py with
      | none => exact Or.inl rfl
      | some y => simp [wfB] at hp
    | some x =>
      cases py with
      | none => simp [wfB] at hp
      | some y => exact Or.inr ⟨x, y, rfl⟩

theorem point_add_wf {p q : Point} {a : F5x2} (hp : wfB p = true)
    (hq : wfB q = true) {s : Point} (hs : point_add p q a = some s) :
    wfB s = true := by
  rcases wfB_cases hp with hpo | ⟨x1, y1, hpxy⟩
  · subst hpo
    simp [point_add, Point.is_at_infinity, Point.at_infinity] at hs
    subst hs; exact hq
  · subst hpxy
    rcases wfB_cases hq with hqo | ⟨x2, y2, hqxy⟩
    · subst hqo
      simp [point_add, Point.is_at_infinity, Point.at_infinity, Point.new] at hs
      subst hs; exact hp
    · subst hqxy
      simp only [point_add, Point.is_at_infinity, Point.new, Option.isNone_some,
        Bool.and_self, Bool.false_and, Bool.false_eq_true, if_false,
        Option.bind_eq_bind, Option.some_bind] at hs
      split at hs
      · simp only [Option.pure_def, Option.some_inj] at hs
        subst hs; rfl
      · split at hs <;>
        · rw [Option.bind_eq_some] at hs
          obtain ⟨lam, _, hk⟩ := hs
          simp only [Option.pure_def, Option.some_inj] at hk
          subst hk; rfl

theorem point_mulAux_wf {a : F5x2} :
    ∀ (fuel k : Nat) {base result : Point}, wfB base = true →
      wfB result = true → ∀ {s : Point},
      point_mulAux a fuel k base result = some s → wfB s = true := by
  intro fuel
  induction fuel with
  | zero =>
    intro k base result _ hr s hs
    simp only [point_mulAux, Option.some_inj] at hs
    subst hs; exact hr
  | succ fuel ih =>
    intro k base result hb hr s hs
    by_cases hk : k = 0
    · simp only [point_mulAux, hk, if_true, Option.some_inj] at hs
      subst hs; exact hr
    · simp only [point_mulAux, hk, if_false, Option.bind_eq_bind] at hs
      split at hs
      · rw [Option.bind_eq_some] at hs
        obtain ⟨r', hr', hs2⟩ := hs
        rw [Option.bind_eq_some] at hs2
        obtain ⟨b', hb', htail⟩ := hs2
        exact ih (k / 2) (point_add_wf hb hb hb') (point_add_wf hr hb hr') htail
      · simp only [Option.pure_def, Option.some_bind] at hs
        rw [Option.bind_eq_some] at hs
        obtain ⟨b', hb', htail⟩ := hs
        exact ih (k / 2) (point_add_wf hb hb hb') hr htail

theorem point_mul_wf {n : Nat} {p : Point} {a : F5x2} (hp : wfB p = true)
    {s : Point} (hs : point_mul n p a = some s) : wfB s = true :=
  point_mulAux_wf n n hp (by rfl) hs

theorem point_frobenius_wf {p : Point} (hp : wfB p = true) :
    (point_frobenius p).isSome = true ∧
      ∀ s, point_frobenius p = some s → wfB s = true := by
  rcases wfB_cases hp with hpo | ⟨x, y, hpxy⟩
  · subst hpo
    constructor
    · rfl
    · intro s hs
      simp [point_frobenius, Point.is_at_infinity, Point.at_infinity] at hs
      subst hs; rfl
  · subst hpxy
    constructor
    · rfl
    · intro s hs
      simp [point_frobenius, Point.is_at_infinity, Point.new] at hs
      subst hs; rfl

/- ### Canonical-range lemmas -/

theorem new_canonical (a b : Nat) : canonicalB (F5x2.new a b) = true := by
  simp only [canonicalB, F5x2.new, Bool.and_eq_true, decide_eq_true_eq]
  exact ⟨Nat.mod_lt _ (by decide), Nat.mod_lt _ (by decide)⟩

theorem inverse_canonical (x : F5x2) : x.inverse.all canonicalB = true := by
  rcases h : F5x2.mod_inverse
      (((x.a : Int) * x.a - 3 * x.b * x.b).emod 5).toNat 5 with _ | inv
  · simp [F5x2.inverse, h]
  · simp [F5x2.inverse, h, new_canonical]

theorem div_canonical (x y : F5x2) : (x.div y).all canonicalB = true := by
  rcases h : y.inverse with _ | inv
  · simp [F5x2.div, h]
  · simp [F5x2.div, h, F5x2.mul, new_canonical]

/-- The fuel argument of `point_mulAux` is irrelevant as soon as it bounds the
shift counter `k`; in particular `fuel = k` reproduces the source `while`
loop, which runs until `k` reaches zero. -/
theorem point_mulAux_fuel_irrelevant {a : F5x2} :
    ∀ (k : Nat), ∀ {fuel fuel' : Nat}, k ≤ fuel → k ≤ fuel' →
      ∀ (base result : Point),
        point_mulAux a fuel k base result = point_mulAux a fuel' k base result := by
  intro k
  induction k using Nat.strong_induction_on with
  | _ k ih =>
    intro fuel fuel' hf hf' base result
    match k, fuel, fuel' with
    | 0, 0, 0 => rfl
    | 0, 0, fuel' + 1 => simp [point_mulAux]
    | 0, fuel + 1, 0 => simp [point_mulAux]
    | 0, fuel + 1, fuel' + 1 => simp [point_mulAux]
    | k + 1, fuel + 1, fuel' + 1 =>
      simp only [point_mulAux, Nat.succ_ne_zero, if_false]
      have hrec : ∀ (b' r' : Point),
          point_mulAux a fuel ((k + 1) / 2) b' r' =
            point_mulAux a fuel' ((k + 1) / 2) b' r' := by
        intro b' r'
        exact ih ((k + 1) / 2) (by omega) (by omega) (by omega) b' r'
      split
      · exact congrArg (Option.bind _) (funext fun r' =>
          congrArg (Option.bind _) (funext fun b' => hrec b' r'))
      · exact congrArg (Option.bind _) (funext fun r' =>
          congrArg (Option.bind _) (funext fun b' => hrec b' r'))

theorem mem_curvePoints_wf {a b : F5x2} {fe : List F5x2} {p : Point}
    (h : p ∈ curvePoints a b fe) : wfB p = true := by
  obtain ⟨x, y, hpxy, _⟩ := mem_curvePoints h
  subst hpxy; rfl

/- ### The claims -/

/-- C1: for the fixed curve (A = B = (1,0)) and the 25-element field universe,
`find_g2_points` returns exactly the points whose Frobenius image equals
their 5-multiple: every non-identity member is an affine point on the curve
satisfying the Frobenius-eigenspace test, every affine curve point satisfying
the test is a member, and the point at infinity appears exactly once. -/
theorem C1_find_g2_points_exact :
    (match find_g2_points a_curve b_curve field_elements with
     | some l =>
         (l.all fun p => (p == Point.at_infinity) ||
           (match p.x, p.y with
            | some x, some y =>
                (y.mul y == curveRhs a_curve b_curve x) && g2TestB a_curve p
            | _, _ => false)) &&
         (field_elements.all fun x => field_elements.all fun y =>
           !((y.mul y == curveRhs a_curve b_curve x) &&
               g2TestB a_curve (Point.new (some x) (some y))) ||
             l.contains (Point.new (some x) (some y))) &&
         (l.count Point.at_infinity == 1)
     | none => false) = true := by decide

/-- C3: for every non-zero element of the 25-element field universe,
multiplying by the inverse gives the multiplicative identity (1,0). -/
theorem C3_field_inverse_correct :
    (field_elements.all fun x => (x == F5x2.new 0 0) ||
      (match x.inverse with
       | some ix => x.mul ix == F5x2.new 1 0
       | none => false)) = true := by decide

/-- C5: the Frobenius automorphism applied twice is the identity map on
every element of the 25-element field universe. -/
theorem C5_frobenius_order_two :
    (field_elements.all fun x => x.frobenius.frobenius == x) = true := by decide

/-- C6: `inverse` takes the fatal path (modelled by `none`) exactly on the
zero field element, and `div x y` takes it exactly when `y` is zero, over the
whole field universe. -/
theorem C6_inverse_div_fail_iff_zero :
    ((field_elements.all fun x =>
        x.inverse.isNone == (x == F5x2.new 0 0)) &&
     (field_elements.all fun y => field_elements.all fun x =>
        (x.div y).isNone == (y == F5x2.new 0 0))) = true := by decide

/-- C8: adding an affine point of the fixed curve to its negation (same x,
additive inverse of y) yields the point at infinity, with no fatal failure,
for every affine point of the curve. -/
theorem C8_add_negation_identity :
    ((curvePoints a_curve b_curve field_elements).all fun p =>
      match p.x, p.y with
      | some x, some y =>
          point_add p (Point.new (some x) (some ((F5x2.new 0 0).sub y)))
            a_curve == some Point.at_infinity
      | _, _ => false) = true := by decide

/-- C2: for every r, `find_full_r_torsion_points` on the fixed curve and the
25-element universe returns exactly the points P with r·P = identity: the run
succeeds, every non-identity member is an affine curve point whose r-multiple
is the point at infinity, every affine curve point (coordinates in the
universe) with that property is a member, and the point at infinity appears
exactly once. -/
theorem C2_find_full_r_torsion_points_exact (r : Nat) :
    ∃ l, find_full_r_torsion_points r a_curve b_curve field_elements = some l ∧
      (∀ p ∈ l, p ≠ Point.at_infinity →
        ∃ x y, p = Point.new (some x) (some y) ∧
          (y.mul y == curveRhs a_curve b_curve x) = true ∧
          point_mul r p a_curve = some Point.at_infinity) ∧
      (∀ x y : F5x2, x ∈ field_elements → y ∈ field_elements →
        (y.mul y == curveRhs a_curve b_curve x) = true →
        point_mul r (Point.new (some x) (some y)) a_curve =
          some Point.at_infinity →
        Point.new (some x) (some y) ∈ l) ∧
      l.count Point.at_infinity = 1 := by
  have hsome : ∀ p ∈ curvePoints a_curve b_curve field_elements,
      (point_mul r p a_curve).isSome = true := fun p hp =>
    point_mul_isSome_on_curve (List.mem_append_left _ hp) r
  have hfe := filterTorsion_eq (r := r) (a := a_curve) hsome
  refine ⟨(curvePoints a_curve b_curve field_elements).filter
      (torsionTestB r a_curve) ++ [Point.at_infinity], ?_, ?_, ?_, ?_⟩
  · simp [find_full_r_torsion_points, hfe]
  · intro p hp hne
    rcases List.mem_append.mp hp with hmem | hmem
    · obtain ⟨hpc, htest⟩ := List.mem_filter.mp hmem
      obtain ⟨x, y, hpxy, _, _, heq⟩ := mem_curvePoints hpc
      refine ⟨x, y, hpxy, heq, ?_⟩
      unfold torsionTestB at htest
      rcases hm : point_mul r p a_curve with _ | m <;> rw [hm] at htest
      · simp at htest
      · have hmo : m = Point.at_infinity :=
          (is_at_infinity_iff m).mp (by simpa using htest)
        rw [hmo]
    · exact absurd (List.mem_singleton.mp hmem) hne
  · intro x y hx hy heq hmul
    apply List.mem_append_left
    apply List.mem_filter.mpr
    refine ⟨curvePoints_complete hx hy heq, ?_⟩
    unfold torsionTestB
    rw [hmul]
    rfl
  · rw [List.count_append]
    have hzero : ((curvePoints a_curve b_curve field_elements).filter
        (torsionTestB r a_curve)).count Point.at_infinity = 0 := by
      rw [List.count_eq_zero]
      intro hmem
      obtain ⟨hpc, _⟩ := List.mem_filter.mp hmem
      obtain ⟨x, y, hpxy, _⟩ := mem_curvePoints hpc
      simp [Point.new, Point.at_infinity] at hpxy
    rw [hzero]
    decide

/-- Witness for C2: the r = 3 instance used by the program's `main`. -/
theorem C2_find_full_r_torsion_points_exact_witness :
    ∃ l, find_full_r_torsion_points 3 a_curve b_curve field_elements = some l ∧
      (∀ p ∈ l, p ≠ Point.at_infinity →
        ∃ x y, p = Point.new (some x) (some y) ∧
          (y.mul y == curveRhs a_curve b_curve x) = true ∧
          point_mul 3 p a_curve = some Point.at_infinity) ∧
      (∀ x y : F5x2, x ∈ field_elements → y ∈ field_elements →
        (y.mul y == curveRhs a_curve b_curve x) = true →
        point_mul 3 (Point.new (some x) (some y)) a_curve =
          some Point.at_infinity →
        Point.new (some x) (some y) ∈ l) ∧
      l.count Point.at_infinity = 1 :=
  C2_find_full_r_torsion_points_exact 3

/-- C7: scalar multiplication never takes a fatal path (zero-denominator
division or failed coordinate unwrap): for every point of the fixed curve —
the 26 affine points the enumeration finds, or the point at infinity — and
every multiplier, `point_mul` returns a value. -/
theorem C7_point_mul_total (n : Nat) (p : Point)
    (hp : p ∈ curvePoints a_curve b_curve field_elements
      ++ [Point.at_infinity]) :
    (point_mul n p a_curve).isSome = true :=
  point_mul_isSome_on_curve hp n

/-- Witness for C7: multiplier 77 on the curve point ((0,0), (1,0)). -/
theorem C7_point_mul_total_witness :
    (point_mul 77 (Point.new (some (F5x2.new 0 0)) (some (F5x2.new 1 0)))
      a_curve).isSome = true :=
  C7_point_mul_total 77
    (Point.new (some (F5x2.new 0 0)) (some (F5x2.new 1 0))) (by decide)

/-- C9: every field element produced by the operations — `new`, `add`, `sub`,
`mul`, `div`, `inverse`, `frobenius` — has both components in the canonical
range [0, 5); in particular the `5 - r` component inside `inverse` is reduced
back into range before the value is returned. -/
theorem C9_canonical_range (x y : F5x2) (a b : Nat) :
    canonicalB (F5x2.new a b) = true ∧ canonicalB (x.add y) = true ∧
    canonicalB (x.sub y) = true ∧ canonicalB (x.mul y) = true ∧
    x.inverse.all canonicalB = true ∧ (x.div y).all canonicalB = true ∧
    canonicalB x.frobenius = true :=
  ⟨new_canonical a b, new_canonical _ _, new_canonical _ _, new_canonical _ _,
    inverse_canonical x, div_canonical x y, new_canonical _ _⟩

/-- Witness for C9: concrete inputs, including out-of-range constructor
arguments. -/
theorem C9_canonical_range_witness :
    canonicalB (F5x2.new 12 9) = true ∧
    canonicalB ((F5x2.new 2 3).add (F5x2.new 1 4)) = true ∧
    canonicalB ((F5x2.new 2 3).sub (F5x2.new 1 4)) = true ∧
    canonicalB ((F5x2.new 2 3).mul (F5x2.new 1 4)) = true ∧
    (F5x2.new 2 3).inverse.all canonicalB = true ∧
    ((F5x2.new 2 3).div (F5x2.new 1 4)).all canonicalB = true ∧
    canonicalB (F5x2.new 2 3).frobenius = true :=
  C9_canonical_range (F5x2.new 2 3) (F5x2.new 1 4) 12 9

/-- C10: although `Point` stores its coordinates as two independent `Option`
fields, every point produced by `point_add`, `point_mul`, `point_frobenius`,
`find_full_r_torsion_points` or `find_g2_points` from well-formed inputs
(both coordinates present or both absent) is itself well formed; on a
well-formed non-infinity point both coordinate accesses succeed, so the
source `unwrap`s cannot fail. -/
theorem C10_wf_points (a b : F5x2) (fe : List F5x2) (p q : Point) (n r : Nat)
    (hp : wfB p = true) (hq : wfB q = true) :
    (p.is_at_infinity = false → p.x.isSome = true ∧ p.y.isSome = true) ∧
    (∀ s, point_add p q a = some s → wfB s = true) ∧
    (∀ s, point_mul n p a = some s → wfB s = true) ∧
    (point_frobenius p).isSome = true ∧
    (∀ s, point_frobenius p = some s → wfB s = true) ∧
    (∀ l, find_full_r_torsion_points r a b fe = some l →
      ∀ s ∈ l, wfB s = true) ∧
    (∀ l, find_g2_points a b fe = some l → ∀ s ∈ l, wfB s = true) := by
  refine ⟨?_, fun s hs => point_add_wf hp hq hs, fun s hs => point_mul_wf hp hs,
    (point_frobenius_wf hp).1, (point_frobenius_wf hp).2, ?_, ?_⟩
  · intro hinf
    rcases wfB_cases hp with ho | ⟨x, y, hxy⟩
    · rw [ho] at hinf; simp [Point.is_at_infinity, Point.at_infinity] at hinf
    · subst hxy; exact ⟨rfl, rfl⟩
  · intro l hl s hsl
    unfold find_full_r_torsion_points at hl
    rw [Option.map_eq_some'] at hl
    obtain ⟨out, hout, hlv⟩ := hl
    subst hlv
    rcases List.mem_append.mp hsl with hmem | hmem
    · exact mem_curvePoints_wf (filterTorsion_subset hout s hmem)
    · rw [List.mem_singleton.mp hmem]; rfl
  · intro l hl s hsl
    unfold find_g2_points at hl
    rw [Option.map_eq_some'] at hl
    obtain ⟨out, hout, hlv⟩ := hl
    subst hlv
    rcases List.mem_append.mp hsl with hmem | hmem
    · exact mem_curvePoints_wf (filterG2_subset hout s hmem)
    · rw [List.mem_singleton.mp hmem]; rfl

/-- Witness for C10: the fixed curve, its field universe, an affine point and
the point at infinity, with n = 2 and r = 3. -/
theorem C10_wf_points_witness :
    ((Point.new (some (F5x2.new 0 0)) (some (F5x2.new 1 0))).is_at_infinity
        = false →
      (Point.new (some (F5x2.new 0 0)) (some (F5x2.new 1 0))).x.isSome = true ∧
      (Point.new (some (F5x2.new 0 0)) (some (F5x2.new 1 0))).y.isSome
        = true) ∧
    (∀ s, point_add (Point.new (some (F5x2.new 0 0)) (some (F5x2.new 1 0)))
        Point.at_infinity a_curve = some s → wfB s = true) ∧
    (∀ s, point_mul 2 (Point.new (some (F5x2.new 0 0)) (some (F5x2.new 1 0)))
        a_curve = some s → wfB s = true) ∧
    (point_frobenius (Point.new (some (F5x2.new 0 0))
        (some (F5x2.new 1 0)))).isSome = true ∧
    (∀ s, point_frobenius (Point.new (some (F5x2.new 0 0))
        (some (F5x2.new 1 0))) = some s → wfB s = true) ∧
    (∀ l, find_full_r_torsion_points 3 a_curve b_curve field_elements = some l →
      ∀ s ∈ l, wfB s = true) ∧
    (∀ l, find_g2_points a_curve b_curve field_elements = some l →
      ∀ s ∈ l, wfB s = true) :=
  C10_wf_points a_curve b_curve field_elements
    (Point.new (some (F5x2.new 0 0)) (some (F5x2.new 1 0)))
    Point.at_infinity 2 3 (by decide) (by decide)

/-- Every point of the fixed curve (affine candidates and the point at
infinity) passes the cycle-table check. -/
theorem cycCheck_all :
    ((curvePoints a_curve b_curve field_elements ++ [Point.at_infinity]).all
      fun p => cycCheckB a_curve p) = true := by decide

theorem cycCheckB_spec {a : F5x2} {p : Point} (h : cycCheckB a p = true) :
    (cycleList a p).getD 0 Point.at_infinity = Point.at_infinity ∧
    (cycleList a p).getD (if (cycleList a p).length = 1 then 0 else 1)
      Point.at_infinity = p ∧
    ∀ i j, i < (cycleList a p).length → j < (cycleList a p).length →
      point_add ((cycleList a p).getD i Point.at_infinity)
        ((cycleList a p).getD j Point.at_infinity) a =
        some ((cycleList a p).getD ((i + j) % (cycleList a p).length)
          Point.at_infinity) := by
  unfold cycCheckB at h
  simp only [Bool.and_eq_true, List.all_eq_true, List.mem_range,
    beq_iff_eq] at h
  obtain ⟨⟨h0, h1⟩, h2⟩ := h
  exact ⟨h0, h1, fun i j hi hj => h2 i hi j hj⟩

theorem cycleList_length_pos (a : F5x2) (p : Point) :
    0 < (cycleList a p).length := by
  simp [cycleList]

/-- The double-and-add loop on a point whose cycle table behaves like Z/d:
running the loop with base at index ib and accumulator at index ir yields the
entry at index (ir + k·ib) mod d. -/
theorem point_mulAux_cycle {a : F5x2} {T : List Point}
    (hcyc : ∀ i j, i < T.length → j < T.length →
      point_add (T.getD i Point.at_infinity) (T.getD j Point.at_infinity) a =
        some (T.getD ((i + j) % T.length) Point.at_infinity)) :
    ∀ fuel k ib ir, k ≤ fuel → ib < T.length → ir < T.length →
      point_mulAux a fuel k (T.getD ib Point.at_infinity)
          (T.getD ir Point.at_infinity) =
        some (T.getD ((ir + k * ib) % T.length) Point.at_infinity) := by
  intro fuel
  induction fuel with
  | zero =>
    intro k ib ir hk hib hir
    have hk0 : k = 0 := Nat.le_zero.mp hk
    subst hk0
    simp [point_mulAux, Nat.mod_eq_of_lt hir]
  | succ fuel ih =>
    intro k ib ir hk hib hir
    by_cases hk0 : k = 0
    · subst hk0
      simp [point_mulAux, Nat.mod_eq_of_lt hir]
    · have hd : 0 < T.length := Nat.lt_of_le_of_lt (Nat.zero_le _) hib
      by_cases hbit : k % 2 = 1
      · have hr' := hcyc ir ib hir hib
        have hb' := hcyc ib ib hib hib
        have hrec := ih (k / 2) ((ib + ib) % T.length) ((ir + ib) % T.length)
          (by omega) (Nat.mod_lt _ hd) (Nat.mod_lt _ hd)
        have harith : ((ir + ib) % T.length
              + k / 2 * ((ib + ib) % T.length)) % T.length
            = (ir + k * ib) % T.length := by
          obtain ⟨q, hq⟩ : ∃ q, k = 2 * q + 1 := ⟨k / 2, by omega⟩
          subst hq
          have hq2 : (2 * q + 1) / 2 = q := by omega
          rw [hq2]
          have hme : ((ir + ib) % T.length
                + q * ((ib + ib) % T.length)) % T.length
              = ((ir + ib) + q * (ib + ib)) % T.length :=
            Nat.ModEq.add (Nat.mod_modEq _ _)
              (Nat.ModEq.mul_left _ (Nat.mod_modEq _ _))
          rw [hme]
          congr 1
          ring
        simp only [point_mulAux, hk0, if_false, Option.bind_eq_bind]
        rw [if_pos hbit, hr']
        simp only [Option.some_bind]
        rw [hb']
        simp only [Option.some_bind]
        rw [hrec, harith]
      · have hb' := hcyc ib ib hib hib
        have hrec := ih (k / 2) ((ib + ib) % T.length) ir (by omega)
          (Nat.mod_lt _ hd) hir
        have harith : (ir + k / 2 * ((ib + ib) % T.length)) % T.length
            = (ir + k * ib) % T.length := by
          obtain ⟨q, hq⟩ : ∃ q, k = 2 * q := ⟨k / 2, by omega⟩
          subst hq
          have hq2 : 2 * q / 2 = q := by omega
          rw [hq2]
          have hme : (ir + q * ((ib + ib) % T.length)) % T.length
              = (ir + q * (ib + ib)) % T.length :=
            Nat.ModEq.add (Nat.ModEq.refl ir)
              (Nat.ModEq.mul_left _ (Nat.mod_modEq _ _))
          rw [hme]
          congr 1
          ring
        simp only [point_mulAux, hk0, if_false, Option.bind_eq_bind]
        rw [if_neg hbit]
        simp only [Option.pure_def, Option.some_bind]
        rw [hb']
        simp only [Option.some_bind]
        rw [hrec, harith]

/-- Scalar multiplication through the cycle table: n·p is the table entry at
index (n·ip) mod d, where ip is the index of p. -/
theorem point_mul_cycle {a : F5x2} {p : Point} {T : List Point} {ip : Nat}
    (hip : T.getD ip Point.at_infinity = p)
    (h0 : T.getD 0 Point.at_infinity = Point.at_infinity)
    (hiplt : ip < T.length) (n : Nat)
    (hcyc : ∀ i j, i < T.length → j < T.length →
      point_add (T.getD i Point.at_infinity) (T.getD j Point.at_infinity) a =
        some (T.getD ((i + j) % T.length) Point.at_infinity)) :
    point_mul n p a = some (T.getD ((n * ip) % T.length) Point.at_infinity)
    := by
  have hd : 0 < T.length := Nat.lt_of_le_of_lt (Nat.zero_le _) hiplt
  have h := point_mulAux_cycle hcyc n n ip 0 (Nat.le_refl n) hiplt hd
  rw [hip, h0] at h
  unfold point_mul
  rw [h, Nat.zero_add]

/-- C4: scalar-multiplication consistency on the fixed curve: for every point
P of the curve (the 26 affine points and the point at infinity),
`point_mul 0` gives the point at infinity, `point_mul 1` gives P back, and
for every multiplier n ≥ 1 (in particular the whole u8 range), n·P equals
(n-1)·P + P, all computations succeeding. -/
theorem C4_scalar_multiply_consistency (p : Point)
    (hp : p ∈ curvePoints a_curve b_curve field_elements
      ++ [Point.at_infinity]) :
    point_mul 0 p a_curve = some Point.at_infinity ∧
    point_mul 1 p a_curve = some p ∧
    ∀ n : Nat, 1 ≤ n →
      point_mul n p a_curve =
        (point_mul (n - 1) p a_curve).bind fun s => point_add s p a_curve
    := by
  have hc : cycCheckB a_curve p = true := List.all_eq_true.mp cycCheck_all p hp
  obtain ⟨h0, hip, hcyc⟩ := cycCheckB_spec hc
  have hdpos : 0 < (cycleList a_curve p).length := cycleList_length_pos a_curve p
  have hiplt : (if (cycleList a_curve p).length = 1 then 0 else 1)
      < (cycleList a_curve p).length := by
    by_cases hone : (cycleList a_curve p).length = 1
    · rw [if_pos hone]; omega
    · rw [if_neg hone]; omega
  have hmul := fun n => point_mul_cycle (a := a_curve) hip h0 hiplt n hcyc
  refine ⟨?_, ?_, ?_⟩
  · rw [hmul 0]
    simp only [Nat.zero_mul, Nat.zero_mod]
    rw [h0]
  · rw [hmul 1]
    simp only [Nat.one_mul]
    rw [Nat.mod_eq_of_lt hiplt, hip]
  · intro n hn
    obtain ⟨m, rfl⟩ : ∃ m, n = m + 1 := ⟨n - 1, by omega⟩
    have step := hcyc ((m * (if (cycleList a_curve p).length = 1 then 0 else 1))
        % (cycleList a_curve p).length)
      (if (cycleList a_curve p).length = 1 then 0 else 1)
      (Nat.mod_lt _ hdpos) hiplt
    rw [hip] at step
    rw [hmul (m + 1), show m + 1 - 1 = m from rfl, hmul m, Option.some_bind,
      step]
    have hme : ((m * (if (cycleList a_curve p).length = 1 then 0 else 1))
              % (cycleList a_curve p).length
            + (if (cycleList a_curve p).length = 1 then 0 else 1))
          % (cycleList a_curve p).length
        = ((m * (if (cycleList a_curve p).length = 1 then 0 else 1))
            + (if (cycleList a_curve p).length = 1 then 0 else 1))
          % (cycleList a_curve p).length :=
      Nat.ModEq.add_right _ (Nat.mod_modEq _ _)
    rw [hme]
    congr 2
    ring_nf

/-- Witness for C4: the affine curve point ((0,0), (1,0)), with the third
conjunct usable at every positive multiplier. -/
theorem C4_scalar_multiply_consistency_witness :
    point_mul 0 (Point.new (some (F5x2.new 0 0)) (some (F5x2.new 1 0)))
      a_curve = some Point.at_infinity ∧
    point_mul 1 (Point.new (some (F5x2.new 0 0)) (some (F5x2.new 1 0)))
      a_curve
      = some (Point.new (some (F5x2.new 0 0)) (some (F5x2.new 1 0))) ∧
    ∀ n : Nat, 1 ≤ n →
      point_mul n (Point.new (some (F5x2.new 0 0)) (some (F5x2.new 1 0)))
          a_curve =
        (point_mul (n - 1)
            (Point.new (some (F5x2.new 0 0)) (some (F5x2.new 1 0)))
            a_curve).bind
          fun s =>
            point_add s
              (Point.new (some (F5x2.new 0 0)) (some (F5x2.new 1 0))) a_curve
    :=
  C4_scalar_multiply_consistency
    (Point.new (some (F5x2.new 0 0)) (some (F5x2.new 1 0))) (by decide)
